import Mathlib

/-! Numeric kernel library of spaGO (`pkg/mat/f64utils/utils.go`).

Shallow embedding of the reduction and activation helpers of `f64utils`.

* A `[]float64` is a `List α`. The functions are generic in the operations they use
  on `α`, so each is read both over an exact ordered number type (`ℚ`, `ℝ`) and over
  `F64 (Ext α)`, float64 with NaN and the two infinities. Rounding of finite results
  is outside the model.
* A Go `int` index is a `Nat` when it is produced by a loop counter and an
  `Int` where the source subtracts (`len(v)-1`).
* A run-time panic is the `Except.error` branch of the result.
* `math.Exp` and `math.Tanh` are library functions and enter as parameters.
-/

namespace F64utils

/-- Run-time panics that the embedded functions can raise. -/
inductive Panic where
  | indexOutOfRange
  deriving DecidableEq, Repr

/-- Go slice indexing `v[i]` with a signed index: panics outside `0 ≤ i < len(v)`. -/
def index {α : Type} (v : List α) (i : Int) : Except Panic α :=
  if 0 ≤ i then
    match v[i.toNat]? with
    | some x => .ok x
    | none => .error .indexOutOfRange
  else .error .indexOutOfRange

/-! ## float64 values

`F64 (Ext α)` is float64 with its special values: NaN, `-Inf`, `+Inf` and the finite
numbers `α`. Comparisons and the special cases of `+`, `-`, `/` follow IEEE 754;
arithmetic on finite numbers is exact (no rounding, no overflow, a single zero).
The functions below are generic in the operations they use, so the same definition
is read over an exact ordered field and over `F64 (Ext α)`. -/

/-- A float64 value that is not NaN: a finite number or one of the two infinities. -/
inductive Ext (α : Type) where
  | negInf
  | fin (x : α)
  | posInf
  deriving DecidableEq, Repr

/-- A float64 value: NaN or a number. -/
inductive F64 (β : Type) where
  | nan
  | num (x : β)
  deriving DecidableEq, Repr

/-- Position of a non-NaN value on the extended line. -/
def Ext.toLine {α : Type} : Ext α → WithBot (WithTop α)
  | .negInf => ⊥
  | .fin x => ((x : WithTop α) : WithBot (WithTop α))
  | .posInf => ((⊤ : WithTop α) : WithBot (WithTop α))

/-- The non-NaN values are totally ordered: `-Inf` below and `+Inf` above the finite ones. -/
instance {α : Type} [LinearOrder α] : LinearOrder (Ext α) :=
  LinearOrder.lift' Ext.toLine (by
    intro a b h
    cases a <;> cases b <;>
      first
      | rfl
      | exact absurd h WithBot.bot_ne_coe
      | exact absurd h.symm WithBot.bot_ne_coe
      | (simp only [Ext.toLine, WithBot.coe_inj] at h
         first
         | exact absurd h (WithTop.coe_ne_top)
         | exact absurd h.symm (WithTop.coe_ne_top)
         | (rw [WithTop.coe_inj] at h; rw [h])))

/-- Go's `<=` on float64: false as soon as one side is NaN. -/
instance {β : Type} [LE β] : LE (F64 β) where
  le a b := match a, b with
    | .num x, .num y => x ≤ y
    | _, _ => False

/-- Go's `<` (and `>`) on float64: false as soon as one side is NaN. -/
instance {β : Type} [LT β] : LT (F64 β) where
  lt a b := match a, b with
    | .num x, .num y => x < y
    | _, _ => False

/-- The comparison `<=` is evaluated, as the `if` of the source does. -/
instance {β : Type} [LE β] [DecidableRel (fun a b : β => a ≤ b)] :
    DecidableRel (fun a b : F64 β => a ≤ b) := fun a b =>
  match a, b with
  | .num x, .num y => inferInstanceAs (Decidable (x ≤ y))
  | .nan, _ => isFalse (fun h => h)
  | .num _, .nan => isFalse (fun h => h)

/-- The comparisons `<` and `>` are evaluated, as the `if`s of the source do. -/
instance {β : Type} [LT β] [DecidableRel (fun a b : β => a < b)] :
    DecidableRel (fun a b : F64 β => a < b) := fun a b =>
  match a, b with
  | .num x, .num y => inferInstanceAs (Decidable (x < y))
  | .nan, _ => isFalse (fun h => h)
  | .num _, .nan => isFalse (fun h => h)


/-- The finite float64 value `x`. -/
def F64.finite {α : Type} (x : α) : F64 (Ext α) :=
  .num (.fin x)

/-- The float64 zero value. -/
instance {α : Type} [Zero α] : Zero (F64 (Ext α)) where
  zero := F64.finite 0

/-- Float64 `+`: NaN propagates, `+Inf + -Inf` is NaN, an infinity absorbs finite values. -/
def F64.add {α : Type} [Add α] : F64 (Ext α) → F64 (Ext α) → F64 (Ext α)
  | .num (.fin x), .num (.fin y) => .num (.fin (x + y))
  | .num .posInf, .num .negInf => .nan
  | .num .negInf, .num .posInf => .nan
  | .num .posInf, .num _ => .num .posInf
  | .num _, .num .posInf => .num .posInf
  | .num .negInf, .num _ => .num .negInf
  | .num _, .num .negInf => .num .negInf
  | _, _ => .nan

/-- Float64 `-`: NaN propagates, `Inf - Inf` of equal sign is NaN. -/
def F64.sub {α : Type} [Sub α] : F64 (Ext α) → F64 (Ext α) → F64 (Ext α)
  | .num (.fin x), .num (.fin y) => .num (.fin (x - y))
  | .num .posInf, .num .posInf => .nan
  | .num .negInf, .num .negInf => .nan
  | .num .posInf, .num _ => .num .posInf
  | .num .negInf, .num _ => .num .negInf
  | .num (.fin _), .num .posInf => .num .negInf
  | .num (.fin _), .num .negInf => .num .posInf
  | _, _ => .nan

/-- Float64 `/`: NaN propagates, `Inf / Inf` and `0 / 0` are NaN, a finite value over
an infinity is `0`, a non-zero value over `0` is an infinity (the zero taken as `+0`). -/
def F64.div {α : Type} [LinearOrderedField α] : F64 (Ext α) → F64 (Ext α) → F64 (Ext α)
  | .num (.fin x), .num (.fin y) =>
    if y = 0 then
      if x = 0 then .nan else if 0 < x then .num .posInf else .num .negInf
    else .num (.fin (x / y))
  | .num (.fin _), .num _ => .num (.fin 0)
  | .num .posInf, .num (.fin y) => if 0 ≤ y then .num .posInf else .num .negInf
  | .num .negInf, .num (.fin y) => if 0 ≤ y then .num .negInf else .num .posInf
  | _, _ => .nan

/-- The operator `+` of the source on float64. -/
instance {α : Type} [Add α] : Add (F64 (Ext α)) where
  add := F64.add

/-- The operator `-` of the source on float64. -/
instance {α : Type} [Sub α] : Sub (F64 (Ext α)) where
  sub := F64.sub

/-- The operator `/` of the source on float64. -/
instance {α : Type} [LinearOrderedField α] : Div (F64 (Ext α)) where
  div := F64.div

/-- The special cases of `math.Exp` around an exponential `e` on the finite values:
`Exp(NaN) = NaN`, `Exp(-Inf) = 0`, `Exp(+Inf) = +Inf`. -/
def liftExp {α : Type} [Zero α] (e : α → α) : F64 (Ext α) → F64 (Ext α)
  | .nan => .nan
  | .num .negInf => F64.finite 0
  | .num (.fin x) => F64.finite (e x)
  | .num .posInf => .num .posInf

/-! ## `Max` and `Sum` -/

/-- Body of the `for _, e := range v` loop of `Max`: `if m <= e { m = e }`. -/
def maxStep {α : Type} [LE α] [DecidableRel (fun a b : α => a ≤ b)] (m e : α) : α :=
  if m ≤ e then e else m

/-- `Max`: starts from the last element `v[len(v)-1]` and scans the slice. -/
def Max {α : Type} [LE α] [DecidableRel (fun a b : α => a ≤ b)] (v : List α) :
    Except Panic α :=
  match index v ((v.length : Int) - 1) with
  | .error p => .error p
  | .ok m => .ok (v.foldl maxStep m)

/-- `Sum`: the named result `s` starts at the zero value and `s += e` runs left to right. -/
def Sum {α : Type} [Zero α] [Add α] (v : List α) : α :=
  v.foldl (fun s e => s + e) 0

/-! ## `ArgMinMax`, `ArgMax`, `ArgMin` -/

/-- Local variables of `ArgMinMax` while the loop runs. -/
structure ArgState (α : Type) where
  imin : Nat
  imax : Nat
  vmin : α
  vmax : α
  deriving Repr

/-- One iteration of the loop of `ArgMinMax` at index `i` with `x = v[i]`. -/
def argStep {α : Type} [LT α] [DecidableRel (fun a b : α => a < b)]
    (s : ArgState α) (i : Nat) (x : α) : ArgState α :=
  let s1 := if x < s.vmin then { s with imin := i, vmin := x } else s
  if x > s1.vmax then { s1 with imax := i, vmax := x } else s1

/-- The loop `for i := ...; i < len(v); i++` over the elements still to visit. -/
def argLoop {α : Type} [LT α] [DecidableRel (fun a b : α => a < b)] :
    List α → Nat → ArgState α → ArgState α
  | [], _, s => s
  | x :: xs, i, s => argLoop xs (i + 1) (argStep s i x)

/-- `ArgMinMax`: `(imin, imax)`; the zero values `(0, 0)` when `len(v) < 1`. -/
def ArgMinMax {α : Type} [LT α] [DecidableRel (fun a b : α => a < b)] (v : List α) :
    Nat × Nat :=
  match v with
  | [] => (0, 0)
  | v0 :: rest =>
    let s := argLoop rest 1 { imin := 0, imax := 0, vmin := v0, vmax := v0 }
    (s.imin, s.imax)

/-- `ArgMax`: the second component of `ArgMinMax`. -/
def ArgMax {α : Type} [LT α] [DecidableRel (fun a b : α => a < b)] (v : List α) : Nat :=
  (ArgMinMax v).2

/-- `ArgMin`: the first component of `ArgMinMax`. -/
def ArgMin {α : Type} [LT α] [DecidableRel (fun a b : α => a < b)] (v : List α) : Nat :=
  (ArgMinMax v).1

/-! ## `SoftMax` -/

/-- First loop of `SoftMax`: `sum += math.Exp(e - c)` from `sum = 0`, the denominator. -/
def softMaxSum {α : Type} [Zero α] [Add α] [Sub α] (exp : α → α) (c : α) (v : List α) : α :=
  v.foldl (fun sum e => sum + exp (e - c)) 0

/-- `SoftMax`: `c := Max(v)`, then the denominator loop, then `sm[i] = math.Exp(v-c) / sum`. -/
def SoftMax {α : Type} [LE α] [DecidableRel (fun a b : α => a ≤ b)]
    [Zero α] [Add α] [Sub α] [Div α] (exp : α → α) (v : List α) : Except Panic (List α) :=
  match Max v with
  | .error p => .error p
  | .ok c =>
    let sum := softMaxSum exp c v
    .ok (v.map (fun e => exp (e - c) / sum))

/-- The unstabilised reference softmax of the specification:
`exp(v[i]) / Σ_j exp(v[j])` at every index. -/
def softmaxReference {α : Type} [LinearOrderedField α] (exp : α → α) (v : List α) : List α :=
  v.map (fun e => exp e / (v.map exp).sum)

/-! ## `Tanh` and its approximations -/

/-- `tanhAnguita`: the piecewise quadratic approximation, cases in source order. -/
def tanhAnguita {α : Type} [LinearOrderedField α] (x : α) : α :=
  if x > 1.92033 then 0.96016
  else if x > 0 then 0.96016 - 0.26037 * (x - 1.92033) * (x - 1.92033)
  else if x ≤ -1.92033 then -0.96016
  else 0.26037 * (x + 1.92033) * (x + 1.92033) - 0.96016

/-- `tanhVarietyOfSound`: Lambert's continued fraction, `a / b`. -/
def tanhVarietyOfSound {α : Type} [LinearOrderedField α] (x : α) : α :=
  let x2 := x * x
  let a := x * (135135.0 + x2 * (17325.0 + x2 * (378.0 + x2)))
  let b := 135135.0 + x2 * (62370.0 + x2 * (3150.0 + x2 * 28.0))
  a / b

/-- The local `a` of `tanhVarietyOfSound`, the numerator of the quotient. -/
def tanhVarietyOfSoundNum {α : Type} [LinearOrderedField α] (x : α) : α :=
  let x2 := x * x
  x * (135135.0 + x2 * (17325.0 + x2 * (378.0 + x2)))

/-- The local `b` of `tanhVarietyOfSound`, the denominator of the quotient. -/
def tanhVarietyOfSoundDen {α : Type} [LinearOrderedField α] (x : α) : α :=
  let x2 := x * x
  135135.0 + x2 * (62370.0 + x2 * (3150.0 + x2 * 28.0))

/-- Modelled from the spec: package `pkg/global` is not among the sources. The
"process-wide configuration" of §4.4 is the field `mathOptimizationLevel` of the
process state; `other` stands for every other piece of process state. -/
structure Process (σ : Type) where
  mathOptimizationLevel : Int
  other : σ

/-- Modelled from the spec: `global.MathOptimizationLevel()` reads the process-wide level. -/
def MathOptimizationLevel {σ : Type} (g : Process σ) : Int :=
  g.mathOptimizationLevel

/-- `Tanh`: `switch global.MathOptimizationLevel()` with `case 1`, `case 2`, `default`.
The single Go argument is `x`; the process state `g` is what the call reads implicitly. -/
def Tanh {α σ : Type} [LinearOrderedField α] (mathTanh : α → α) (g : Process σ) (x : α) : α :=
  if MathOptimizationLevel g = 1 then tanhVarietyOfSound x
  else if MathOptimizationLevel g = 2 then tanhAnguita x
  else mathTanh x

/-! ## `StrToFloat64Slice` -/

/-- Go's `unicode.IsSpace` on a code point: tab to carriage return, space, U+0085,
U+00A0 and the code points with the Unicode White_Space property above Latin-1. -/
def isSpace (c : Char) : Bool :=
  let r := c.toNat
  (9 ≤ r && r ≤ 13) || r == 32 || r == 0x85 || r == 0xA0 || r == 0x1680 ||
    (0x2000 ≤ r && r ≤ 0x200A) || r == 0x2028 || r == 0x2029 || r == 0x202F ||
    r == 0x205F || r == 0x3000

/-- Scan of `strings.Fields`: `cur` holds the characters of the field being read, most
recent first; a white space character closes a non-empty field. -/
def fieldsAux : List Char → List Char → List String
  | [], cur => if cur.isEmpty then [] else [String.mk cur.reverse]
  | c :: cs, cur =>
    if isSpace c then
      if cur.isEmpty then fieldsAux cs [] else String.mk cur.reverse :: fieldsAux cs []
    else fieldsAux cs (c :: cur)

/-- Go's `strings.Fields`: the maximal runs of non-space characters, in order. -/
def Fields (str : String) : List String :=
  fieldsAux str.data []

/-- The loop `for i, v := range spl` of `StrToFloat64Slice`: `data[i] = num` while
`strconv.ParseFloat` succeeds, `return nil, err` at the first failure, and
`return data, nil` after the last field. The Go result pair is a pair of options. -/
def parseLoop {α ε : Type} (parseFloat : String → Except ε α) :
    List String → Nat → List α → Option (List α) × Option ε
  | [], _, data => (some data, none)
  | v :: rest, i, data =>
    match parseFloat v with
    | .ok num => parseLoop parseFloat rest (i + 1) (data.set i num)
    | .error err => (none, some err)

/-- `StrToFloat64Slice`: `spl := strings.Fields(str)`, `data := make([]float64, len(spl))`,
then the loop. `strconv.ParseFloat(v, 64)` is the parameter `parseFloat`. -/
def StrToFloat64Slice {α ε : Type} [Zero α] (parseFloat : String → Except ε α) (str : String) :
    Option (List α) × Option ε :=
  let spl := Fields str
  let data := List.replicate spl.length (0 : α)
  parseLoop parseFloat spl 0 data

/-- A toy token parser used on concrete runs: it accepts the tokens `"1"` and `"2"`. -/
def parseOneTwo (t : String) : Except String ℚ :=
  if t = "1" then .ok 1 else if t = "2" then .ok 2 else .error t

/-! ## Loop invariants of `ArgMinMax` -/

/-- The loop state of `ArgMinMax` with its two values read through `f`. -/
def ArgState.map {β γ : Type} (f : β → γ) (s : ArgState β) : ArgState γ :=
  { imin := s.imin, imax := s.imax, vmin := f s.vmin, vmax := f s.vmax }

/-- Invariant of the `imax`/`vmax` pair over the visited prefix `p`. -/
def MaxInv {α : Type} [LinearOrder α] (p : List α) (s : ArgState α) : Prop :=
  p[s.imax]? = some s.vmax ∧
  (∀ (j : Nat) (x : α), p[j]? = some x → x ≤ s.vmax) ∧
  (∀ (j : Nat) (x : α), j < s.imax → p[j]? = some x → x < s.vmax)

/-- Invariant of the `imin`/`vmin` pair over the visited prefix `p`. -/
def MinInv {α : Type} [LinearOrder α] (p : List α) (s : ArgState α) : Prop :=
  p[s.imin]? = some s.vmin ∧
  (∀ (j : Nat) (x : α), p[j]? = some x → s.vmin ≤ x) ∧
  (∀ (j : Nat) (x : α), j < s.imin → p[j]? = some x → s.vmin < x)

theorem argStep_imax {α : Type} [LT α] [DecidableRel (fun a b : α => a < b)]
    (s : ArgState α) (i : Nat) (x : α) :
    (argStep s i x).imax = (if x > s.vmax then i else s.imax) ∧
    (argStep s i x).vmax = (if x > s.vmax then x else s.vmax) := by
  unfold argStep
  by_cases h1 : x < s.vmin <;> by_cases h2 : x > s.vmax <;> simp [h1, h2]

theorem argStep_imin {α : Type} [LT α] [DecidableRel (fun a b : α => a < b)]
    (s : ArgState α) (i : Nat) (x : α) :
    (argStep s i x).imin = (if x < s.vmin then i else s.imin) ∧
    (argStep s i x).vmin = (if x < s.vmin then x else s.vmin) := by
  unfold argStep
  by_cases h1 : x < s.vmin <;> by_cases h2 : x > s.vmax <;> simp [h1, h2]

theorem getElem?_snoc_cases {α : Type} (p : List α) (x y : α) (j : Nat)
    (h : (p ++ [x])[j]? = some y) : p[j]? = some y ∨ (j = p.length ∧ y = x) := by
  by_cases hj : j < p.length
  · left
    rw [List.getElem?_append_left hj] at h
    exact h
  · right
    have hle : p.length ≤ j := Nat.le_of_not_lt hj
    rw [List.getElem?_append_right hle] at h
    by_cases hz : j - p.length = 0
    · rw [hz] at h
      simp at h
      exact ⟨by omega, h.symm⟩
    · obtain ⟨k, hk⟩ := Nat.exists_eq_succ_of_ne_zero hz
      rw [hk] at h
      simp at h

theorem getElem?_lt_length {α : Type} (p : List α) (j : Nat) (y : α)
    (h : p[j]? = some y) : j < p.length := by
  by_contra hc
  rw [List.getElem?_eq_none (Nat.le_of_not_lt hc)] at h
  exact Option.noConfusion h

theorem getElem?_snoc_length {α : Type} (p : List α) (x : α) :
    (p ++ [x])[p.length]? = some x := by
  rw [List.getElem?_append_right (Nat.le_refl _)]
  simp

theorem getElem?_snoc_of_some {α : Type} (p : List α) (x y : α) (j : Nat)
    (h : p[j]? = some y) : (p ++ [x])[j]? = some y := by
  rw [List.getElem?_append_left (getElem?_lt_length p j y h)]
  exact h

theorem MaxInv_step {α : Type} [LinearOrder α] (p : List α) (s : ArgState α) (x : α)
    (h : MaxInv p s) : MaxInv (p ++ [x]) (argStep s p.length x) := by
  obtain ⟨hAt, hLe, hLt⟩ := h
  obtain ⟨hi, hv⟩ := argStep_imax s p.length x
  unfold MaxInv
  rw [hi, hv]
  by_cases hx : x > s.vmax
  · simp only [hx, if_true]
    refine ⟨getElem?_snoc_length p x, ?_, ?_⟩
    · intro j y hy
      rcases getElem?_snoc_cases p x y j hy with hp | ⟨_, rfl⟩
      · exact le_of_lt (lt_of_le_of_lt (hLe j y hp) hx)
      · exact le_refl _
    · intro j y hj hy
      rcases getElem?_snoc_cases p x y j hy with hp | ⟨hjl, _⟩
      · exact lt_of_le_of_lt (hLe j y hp) hx
      · omega
  · simp only [hx, if_false]
    refine ⟨getElem?_snoc_of_some p x _ _ hAt, ?_, ?_⟩
    · intro j y hy
      rcases getElem?_snoc_cases p x y j hy with hp | ⟨_, rfl⟩
      · exact hLe j y hp
      · exact le_of_not_lt hx
    · intro j y hj hy
      rcases getElem?_snoc_cases p x y j hy with hp | ⟨hjl, _⟩
      · exact hLt j y hj hp
      · have := getElem?_lt_length p _ _ hAt
        omega

theorem MinInv_step {α : Type} [LinearOrder α] (p : List α) (s : ArgState α) (x : α)
    (h : MinInv p s) : MinInv (p ++ [x]) (argStep s p.length x) := by
  obtain ⟨hAt, hLe, hLt⟩ := h
  obtain ⟨hi, hv⟩ := argStep_imin s p.length x
  unfold MinInv
  rw [hi, hv]
  by_cases hx : x < s.vmin
  · simp only [hx, if_true]
    refine ⟨getElem?_snoc_length p x, ?_, ?_⟩
    · intro j y hy
      rcases getElem?_snoc_cases p x y j hy with hp | ⟨_, rfl⟩
      · exact le_of_lt (lt_of_lt_of_le hx (hLe j y hp))
      · exact le_refl _
    · intro j y hj hy
      rcases getElem?_snoc_cases p x y j hy with hp | ⟨hjl, _⟩
      · exact lt_of_lt_of_le hx (hLe j y hp)
      · omega
  · simp only [hx, if_false]
    refine ⟨getElem?_snoc_of_some p x _ _ hAt, ?_, ?_⟩
    · intro j y hy
      rcases getElem?_snoc_cases p x y j hy with hp | ⟨_, rfl⟩
      · exact hLe j y hp
      · exact le_of_not_lt hx
    · intro j y hj hy
      rcases getElem?_snoc_cases p x y j hy with hp | ⟨hjl, _⟩
      · exact hLt j y hj hp
      · have := getElem?_lt_length p _ _ hAt
        omega

theorem argLoop_inv {α : Type} [LinearOrder α] (xs : List α) :
    ∀ (p : List α) (s : ArgState α), MaxInv p s → MinInv p s →
      MaxInv (p ++ xs) (argLoop xs p.length s) ∧ MinInv (p ++ xs) (argLoop xs p.length s) := by
  induction xs with
  | nil =>
    intro p s hmax hmin
    simpa [argLoop] using And.intro hmax hmin
  | cons x xs ih =>
    intro p s hmax hmin
    have h := ih (p ++ [x]) (argStep s p.length x) (MaxInv_step p s x hmax) (MinInv_step p s x hmin)
    simpa [argLoop, List.append_assoc] using h

theorem ArgMinMax_inv {α : Type} [LinearOrder α] (v0 : α) (rest : List α) :
    MaxInv (v0 :: rest) (argLoop rest 1 { imin := 0, imax := 0, vmin := v0, vmax := v0 }) ∧
    MinInv (v0 :: rest) (argLoop rest 1 { imin := 0, imax := 0, vmin := v0, vmax := v0 }) := by
  have hmax : MaxInv [v0] { imin := 0, imax := 0, vmin := v0, vmax := v0 } := by
    refine ⟨by simp, ?_, ?_⟩
    · intro j x hx
      cases j with
      | zero => simp at hx; simp [hx]
      | succ k => simp at hx
    · intro j x hj; simp at hj
  have hmin : MinInv [v0] { imin := 0, imax := 0, vmin := v0, vmax := v0 } := by
    refine ⟨by simp, ?_, ?_⟩
    · intro j x hx
      cases j with
      | zero => simp at hx; simp [hx]
      | succ k => simp at hx
    · intro j x hj; simp at hj
  simpa using argLoop_inv rest [v0] _ hmax hmin

/-- Over a total order, for a non-empty slice `v`, `ArgMax v` is a valid index, no
element exceeds `v[ArgMax v]`, and every element before that index is strictly smaller. -/
theorem ArgMax_spec {α : Type} [LinearOrder α] (v : List α) (hne : v ≠ []) :
    ∃ hi : ArgMax v < v.length,
      (∀ (j : Nat) (hj : j < v.length), v[j] ≤ v[ArgMax v]) ∧
      (∀ (j : Nat) (hj : j < ArgMax v), v[j] < v[ArgMax v]) := by
  cases v with
  | nil => exact absurd rfl hne
  | cons v0 rest =>
    obtain ⟨⟨hAt, hLe, hLt⟩, _⟩ := ArgMinMax_inv v0 rest
    have hi : ArgMax (v0 :: rest) < (v0 :: rest).length :=
      getElem?_lt_length _ _ _ hAt
    have hval : (v0 :: rest)[ArgMax (v0 :: rest)] = _ :=
      Option.some.inj ((List.getElem?_eq_getElem hi).symm.trans hAt)
    refine ⟨hi, ?_, ?_⟩
    · intro j hj
      rw [hval]
      exact hLe j _ (List.getElem?_eq_getElem hj)
    · intro j hj
      rw [hval]
      exact hLt j _ hj (List.getElem?_eq_getElem (lt_trans hj hi))

/-- Over a total order, for a non-empty slice `v`, `ArgMin v` is a valid index, no
element is below `v[ArgMin v]`, and every element before that index is strictly larger. -/
theorem ArgMin_spec {α : Type} [LinearOrder α] (v : List α) (hne : v ≠ []) :
    ∃ hi : ArgMin v < v.length,
      (∀ (j : Nat) (hj : j < v.length), v[ArgMin v] ≤ v[j]) ∧
      (∀ (j : Nat) (hj : j < ArgMin v), v[ArgMin v] < v[j]) := by
  cases v with
  | nil => exact absurd rfl hne
  | cons v0 rest =>
    obtain ⟨_, hAt, hLe, hLt⟩ := ArgMinMax_inv v0 rest
    have hi : ArgMin (v0 :: rest) < (v0 :: rest).length :=
      getElem?_lt_length _ _ _ hAt
    have hval : (v0 :: rest)[ArgMin (v0 :: rest)] = _ :=
      Option.some.inj ((List.getElem?_eq_getElem hi).symm.trans hAt)
    refine ⟨hi, ?_, ?_⟩
    · intro j hj
      rw [hval]
      exact hLe j _ (List.getElem?_eq_getElem hj)
    · intro j hj
      rw [hval]
      exact hLt j _ hj (List.getElem?_eq_getElem (lt_trans hj hi))

/-! ## `ArgMinMax` on float64 values -/

theorem argStep_eq {α : Type} [LT α] [DecidableRel (fun a b : α => a < b)]
    (s : ArgState α) (i : Nat) (x : α) :
    argStep s i x =
      { imin := if x < s.vmin then i else s.imin,
        imax := if x > s.vmax then i else s.imax,
        vmin := if x < s.vmin then x else s.vmin,
        vmax := if x > s.vmax then x else s.vmax } := by
  unfold argStep
  by_cases h1 : x < s.vmin <;> by_cases h2 : x > s.vmax <;> simp [h1, h2]

theorem argStep_map {β γ : Type} [LT β] [DecidableRel (fun a b : β => a < b)]
    [LT γ] [DecidableRel (fun a b : γ => a < b)] (f : β → γ)
    (hlt : ∀ x y : β, f x < f y ↔ x < y) (s : ArgState β) (i : Nat) (x : β) :
    argStep (s.map f) i (f x) = (argStep s i x).map f := by
  rw [argStep_eq, argStep_eq]
  by_cases h1 : x < s.vmin <;> by_cases h2 : x > s.vmax <;>
    simp [ArgState.map, hlt, h1, h2]

theorem argLoop_map {β γ : Type} [LT β] [DecidableRel (fun a b : β => a < b)]
    [LT γ] [DecidableRel (fun a b : γ => a < b)] (f : β → γ)
    (hlt : ∀ x y : β, f x < f y ↔ x < y) (xs : List β) :
    ∀ (i : Nat) (s : ArgState β),
      argLoop (xs.map f) i (s.map f) = (argLoop xs i s).map f := by
  induction xs with
  | nil => intro i s; rfl
  | cons x xs ih =>
    intro i s
    simp only [List.map_cons, argLoop]
    rw [argStep_map f hlt, ih]

theorem ArgMinMax_map {β γ : Type} [LT β] [DecidableRel (fun a b : β => a < b)]
    [LT γ] [DecidableRel (fun a b : γ => a < b)] (f : β → γ)
    (hlt : ∀ x y : β, f x < f y ↔ x < y) (w : List β) :
    ArgMinMax (w.map f) = ArgMinMax w := by
  cases w with
  | nil => rfl
  | cons w0 rest =>
    have h := argLoop_map f hlt rest 1 { imin := 0, imax := 0, vmin := w0, vmax := w0 }
    simp only [List.map_cons, ArgMinMax]
    have h2 : ({ imin := 0, imax := 0, vmin := f w0, vmax := f w0 } : ArgState γ) =
        ArgState.map f { imin := 0, imax := 0, vmin := w0, vmax := w0 } := rfl
    rw [h2, h]
    rfl

theorem F64.num_lt_num {β : Type} [LT β] (x y : β) :
    (F64.num x < F64.num y) ↔ x < y := Iff.rfl

theorem F64.num_le_num {β : Type} [LE β] (x y : β) :
    (F64.num x ≤ F64.num y) ↔ x ≤ y := Iff.rfl

theorem F64.exists_map_num {β : Type} (v : List (F64 β)) (hnan : ∀ x ∈ v, x ≠ F64.nan) :
    ∃ w : List β, v = w.map F64.num := by
  induction v with
  | nil => exact ⟨[], rfl⟩
  | cons a v ih =>
    obtain ⟨w, hw⟩ := ih (fun x hx => hnan x (List.mem_cons_of_mem a hx))
    cases a with
    | nan => exact absurd rfl (hnan F64.nan (List.mem_cons_self _ _))
    | num x => exact ⟨x :: w, by rw [hw]; rfl⟩

/-- C1, as stated, fails on a slice with a NaN: on `[NaN, 5, 1]` no comparison with
`vmax = NaN` succeeds, so `ArgMax` returns `0` although `v[1] = 5` is not `≤ v[0]`. -/
theorem ArgMax_not_maximum_with_nan :
    ArgMax ([F64.nan, F64.num 5, F64.num 1] : List (F64 ℚ)) = 0 ∧
    ¬ (([F64.nan, F64.num 5, F64.num 1] : List (F64 ℚ))[1] ≤
        ([F64.nan, F64.num 5, F64.num 1] : List (F64 ℚ))[0]) := by
  decide

/-- C1, amended. For a non-empty float64 slice `v` without NaN, `ArgMax v` is a valid
index, no element exceeds `v[ArgMax v]`, and every element before that index is
strictly smaller: the index of the first occurrence of the maximum. -/
theorem ArgMax_first_maximum_of_nan_free {β : Type} [LinearOrder β] (v : List (F64 β))
    (hne : v ≠ []) (hnan : ∀ x ∈ v, x ≠ F64.nan) :
    ∃ hi : ArgMax v < v.length,
      (∀ (j : Nat) (hj : j < v.length), v[j] ≤ v[ArgMax v]) ∧
      (∀ (j : Nat) (hj : j < ArgMax v), v[j] < v[ArgMax v]) := by
  obtain ⟨w, rfl⟩ := F64.exists_map_num v hnan
  have hw : w ≠ [] := by
    intro h
    exact hne (by rw [h]; rfl)
  have hA : ArgMax (w.map F64.num) = ArgMax w := by
    unfold ArgMax
    rw [ArgMinMax_map F64.num F64.num_lt_num w]
  obtain ⟨hi, hle, hlt⟩ := ArgMax_spec w hw
  have hi2 : ArgMax (w.map F64.num) < (w.map F64.num).length := by
    rw [hA, List.length_map]; exact hi
  refine ⟨hi2, ?_, ?_⟩
  · intro j hj
    have hj2 : j < w.length := by rw [List.length_map] at hj; exact hj
    simp only [List.getElem_map, hA]
    exact hle j hj2
  · intro j hj
    have hj2 : j < ArgMax w := by rw [hA] at hj; exact hj
    simp only [List.getElem_map, hA]
    exact hlt j hj2

/-- The tie-break example of C1 on float64 values: `ArgMax [3, 5, 5, 1] = 1`, with the
contract of `ArgMax_first_maximum_of_nan_free` at that input. -/
theorem ArgMax_first_maximum_of_nan_free_witness :
    ArgMax ([F64.num 3, F64.num 5, F64.num 5, F64.num 1] : List (F64 ℚ)) = 1 ∧
    ∃ hi : ArgMax ([F64.num 3, F64.num 5, F64.num 5, F64.num 1] : List (F64 ℚ)) <
        ([F64.num 3, F64.num 5, F64.num 5, F64.num 1] : List (F64 ℚ)).length,
      (∀ (j : Nat) (hj : j < ([F64.num 3, F64.num 5, F64.num 5, F64.num 1] : List (F64 ℚ)).length),
        ([F64.num 3, F64.num 5, F64.num 5, F64.num 1] : List (F64 ℚ))[j] ≤
          ([F64.num 3, F64.num 5, F64.num 5, F64.num 1] : List (F64 ℚ))[
            ArgMax ([F64.num 3, F64.num 5, F64.num 5, F64.num 1] : List (F64 ℚ))]) ∧
      (∀ (j : Nat)
        (hj : j < ArgMax ([F64.num 3, F64.num 5, F64.num 5, F64.num 1] : List (F64 ℚ))),
        ([F64.num 3, F64.num 5, F64.num 5, F64.num 1] : List (F64 ℚ))[j] <
          ([F64.num 3, F64.num 5, F64.num 5, F64.num 1] : List (F64 ℚ))[
            ArgMax ([F64.num 3, F64.num 5, F64.num 5, F64.num 1] : List (F64 ℚ))]) :=
  ⟨by decide,
   ArgMax_first_maximum_of_nan_free [F64.num 3, F64.num 5, F64.num 5, F64.num 1]
     (by simp) (by decide)⟩

/-- C2, as stated, fails on a slice with a NaN: on `[NaN, 5, 1]` no comparison with
`vmin = NaN` succeeds, so `ArgMin` returns `0` although `v[0]` is not `≤ v[2] = 1`. -/
theorem ArgMin_not_minimum_with_nan :
    ArgMin ([F64.nan, F64.num 5, F64.num 1] : List (F64 ℚ)) = 0 ∧
    ¬ (([F64.nan, F64.num 5, F64.num 1] : List (F64 ℚ))[0] ≤
        ([F64.nan, F64.num 5, F64.num 1] : List (F64 ℚ))[2]) := by
  decide

/-- C2, amended. For a non-empty float64 slice `v` without NaN, `ArgMin v` is a valid
index, no element is below `v[ArgMin v]`, and every element before that index is
strictly larger: the index of the first occurrence of the minimum. -/
theorem ArgMin_first_minimum_of_nan_free {β : Type} [LinearOrder β] (v : List (F64 β))
    (hne : v ≠ []) (hnan : ∀ x ∈ v, x ≠ F64.nan) :
    ∃ hi : ArgMin v < v.length,
      (∀ (j : Nat) (hj : j < v.length), v[ArgMin v] ≤ v[j]) ∧
      (∀ (j : Nat) (hj : j < ArgMin v), v[ArgMin v] < v[j]) := by
  obtain ⟨w, rfl⟩ := F64.exists_map_num v hnan
  have hw : w ≠ [] := by
    intro h
    exact hne (by rw [h]; rfl)
  have hA : ArgMin (w.map F64.num) = ArgMin w := by
    unfold ArgMin
    rw [ArgMinMax_map F64.num F64.num_lt_num w]
  obtain ⟨hi, hle, hlt⟩ := ArgMin_spec w hw
  have hi2 : ArgMin (w.map F64.num) < (w.map F64.num).length := by
    rw [hA, List.length_map]; exact hi
  refine ⟨hi2, ?_, ?_⟩
  · intro j hj
    have hj2 : j < w.length := by rw [List.length_map] at hj; exact hj
    simp only [List.getElem_map, hA]
    exact hle j hj2
  · intro j hj
    have hj2 : j < ArgMin w := by rw [hA] at hj; exact hj
    simp only [List.getElem_map, hA]
    exact hlt j hj2

/-- The tie-break example of C2 on float64 values: `ArgMin [3, 1, 1, 5] = 1`, with the
contract of `ArgMin_first_minimum_of_nan_free` at that input. -/
theorem ArgMin_first_minimum_of_nan_free_witness :
    ArgMin ([F64.num 3, F64.num 1, F64.num 1, F64.num 5] : List (F64 ℚ)) = 1 ∧
    ∃ hi : ArgMin ([F64.num 3, F64.num 1, F64.num 1, F64.num 5] : List (F64 ℚ)) <
        ([F64.num 3, F64.num 1, F64.num 1, F64.num 5] : List (F64 ℚ)).length,
      (∀ (j : Nat) (hj : j < ([F64.num 3, F64.num 1, F64.num 1, F64.num 5] : List (F64 ℚ)).length),
        ([F64.num 3, F64.num 1, F64.num 1, F64.num 5] : List (F64 ℚ))[
            ArgMin ([F64.num 3, F64.num 1, F64.num 1, F64.num 5] : List (F64 ℚ))] ≤
          ([F64.num 3, F64.num 1, F64.num 1, F64.num 5] : List (F64 ℚ))[j]) ∧
      (∀ (j : Nat)
        (hj : j < ArgMin ([F64.num 3, F64.num 1, F64.num 1, F64.num 5] : List (F64 ℚ))),
        ([F64.num 3, F64.num 1, F64.num 1, F64.num 5] : List (F64 ℚ))[
            ArgMin ([F64.num 3, F64.num 1, F64.num 1, F64.num 5] : List (F64 ℚ))] <
          ([F64.num 3, F64.num 1, F64.num 1, F64.num 5] : List (F64 ℚ))[j]) :=
  ⟨by decide,
   ArgMin_first_minimum_of_nan_free [F64.num 3, F64.num 1, F64.num 1, F64.num 5]
     (by simp) (by decide)⟩

/-! ## `Max` -/

theorem index_last {α : Type} (v : List α) (hne : v ≠ []) :
    index v ((v.length : Int) - 1) = .ok (v.getLast hne) := by
  have hpos : 0 < v.length := List.length_pos.mpr hne
  have h0 : (0 : Int) ≤ (v.length : Int) - 1 := by omega
  have ht : ((v.length : Int) - 1).toNat = v.length - 1 := by omega
  have hlt : v.length - 1 < v.length := by omega
  unfold index
  rw [if_pos h0, ht, List.getElem?_eq_getElem hlt, List.getLast_eq_getElem]

theorem Max_eq_foldl {α : Type} [LinearOrder α] (v : List α) (hne : v ≠ []) :
    Max v = .ok (v.foldl maxStep (v.getLast hne)) := by
  unfold Max
  rw [index_last v hne]

theorem foldl_maxStep_ge_init {α : Type} [LinearOrder α] (v : List α) :
    ∀ m : α, m ≤ v.foldl maxStep m := by
  induction v with
  | nil => intro m; exact le_refl m
  | cons e es ih =>
    intro m
    have h1 : m ≤ maxStep m e := by
      unfold maxStep
      by_cases h : m ≤ e
      · rw [if_pos h]; exact h
      · rw [if_neg h]
    exact le_trans h1 (ih (maxStep m e))

theorem foldl_maxStep_ge_mem {α : Type} [LinearOrder α] (v : List α) :
    ∀ (m e : α), e ∈ v → e ≤ v.foldl maxStep m := by
  induction v with
  | nil => intro m e he; simp at he
  | cons a es ih =>
    intro m e he
    rcases List.mem_cons.mp he with rfl | hmem
    · have h1 : e ≤ maxStep m e := by
        unfold maxStep
        by_cases h : m ≤ e
        · rw [if_pos h]
        · rw [if_neg h]; exact le_of_lt (lt_of_not_le h)
      exact le_trans h1 (foldl_maxStep_ge_init es (maxStep m e))
    · exact ih (maxStep m a) e hmem

theorem foldl_maxStep_mem {α : Type} [LinearOrder α] (v : List α) :
    ∀ m : α, v.foldl maxStep m = m ∨ v.foldl maxStep m ∈ v := by
  induction v with
  | nil => intro m; exact Or.inl rfl
  | cons a es ih =>
    intro m
    show List.foldl maxStep (maxStep m a) es = m ∨ List.foldl maxStep (maxStep m a) es ∈ a :: es
    rcases ih (maxStep m a) with h | h
    · rw [h]
      by_cases hle : m ≤ a
      · right
        have hs : maxStep m a = a := by unfold maxStep; rw [if_pos hle]
        rw [hs]
        exact List.mem_cons_self a es
      · left
        unfold maxStep
        rw [if_neg hle]
    · right
      exact List.mem_cons_of_mem a h

theorem Max_spec {α : Type} [LinearOrder α] (v : List α) (hne : v ≠ []) :
    ∃ m, Max v = .ok m ∧ m ∈ v ∧ ∀ e ∈ v, e ≤ m := by
  refine ⟨_, Max_eq_foldl v hne, ?_, fun e he => foldl_maxStep_ge_mem v _ e he⟩
  rcases foldl_maxStep_mem v (v.getLast hne) with h | h
  · rw [h]; exact List.getLast_mem hne
  · exact h

/-- Over a total order, for a non-empty slice `v`, `Max v` returns a value `m` that is
one of the elements `v[i]` and that no element `v[j]` exceeds. -/
theorem Max_spec_index {α : Type} [LinearOrder α] (v : List α) (hne : v ≠ []) :
    ∃ m, Max v = .ok m ∧
      (∃ (i : Nat) (hi : i < v.length), v[i] = m) ∧
      (∀ (j : Nat) (hj : j < v.length), v[j] ≤ m) := by
  obtain ⟨m, hm, hmem, hle⟩ := Max_spec v hne
  refine ⟨m, hm, ?_, ?_⟩
  · obtain ⟨i, hi, hv⟩ := List.getElem_of_mem hmem
    exact ⟨i, hi, hv⟩
  · intro j hj
    exact hle _ (List.getElem_mem hj)

/-! ## `Max` on float64 values -/

theorem foldl_maxStep_map {β γ : Type} [LE β] [DecidableRel (fun a b : β => a ≤ b)]
    [LE γ] [DecidableRel (fun a b : γ => a ≤ b)] (f : β → γ)
    (hle : ∀ x y : β, f x ≤ f y ↔ x ≤ y) (w : List β) :
    ∀ m : β, (w.map f).foldl maxStep (f m) = f (w.foldl maxStep m) := by
  induction w with
  | nil => intro m; rfl
  | cons e es ih =>
    intro m
    have hstep : maxStep (f m) (f e) = f (maxStep m e) := by
      unfold maxStep
      by_cases h : m ≤ e
      · rw [if_pos h, if_pos ((hle m e).mpr h)]
      · rw [if_neg h, if_neg (fun h2 => h ((hle m e).mp h2))]
    simp only [List.map_cons, List.foldl_cons]
    rw [hstep, ih]

theorem index_map {β γ : Type} (f : β → γ) (w : List β) (i : Int) (m : β)
    (h : index w i = .ok m) : index (w.map f) i = .ok (f m) := by
  unfold index at h ⊢
  by_cases hi : 0 ≤ i
  · rw [if_pos hi] at h ⊢
    rw [List.getElem?_map]
    cases hw : w[i.toNat]? with
    | none => rw [hw] at h; exact Except.noConfusion h
    | some x =>
      rw [hw] at h
      have hx : x = m := by injection h
      rw [hx]
      rfl
  · rw [if_neg hi] at h
    exact Except.noConfusion h

theorem Max_map {β γ : Type} [LE β] [DecidableRel (fun a b : β => a ≤ b)]
    [LE γ] [DecidableRel (fun a b : γ => a ≤ b)] (f : β → γ)
    (hle : ∀ x y : β, f x ≤ f y ↔ x ≤ y) (w : List β) (m : β) (h : Max w = .ok m) :
    Max (w.map f) = .ok (f m) := by
  unfold Max at h ⊢
  rw [List.length_map]
  cases hidx : index w ((w.length : Int) - 1) with
  | error p => rw [hidx] at h; exact Except.noConfusion h
  | ok m0 =>
    rw [hidx] at h
    rw [index_map f w _ m0 hidx]
    have hm : w.foldl maxStep m0 = m := by injection h
    show Except.ok ((w.map f).foldl maxStep (f m0)) = Except.ok (f m)
    rw [foldl_maxStep_map f hle w m0, hm]

/-- C6, as stated, fails on a slice with a NaN: `Max [1, NaN]` starts from the last
element `NaN`, no `m <= e` succeeds, and the result `NaN` does not bound `v[0] = 1`. -/
theorem Max_not_greatest_with_nan :
    Max ([F64.num 1, F64.nan] : List (F64 ℚ)) = .ok F64.nan ∧
    ¬ (([F64.num 1, F64.nan] : List (F64 ℚ))[0] ≤ F64.nan) :=
  ⟨rfl, by decide⟩

/-- C6, amended. For a non-empty float64 slice `v` without NaN, `Max v` returns a value
`m` that is one of the elements `v[i]` and that no element `v[j]` exceeds. -/
theorem Max_is_greatest_of_nan_free {β : Type} [LinearOrder β] (v : List (F64 β))
    (hne : v ≠ []) (hnan : ∀ x ∈ v, x ≠ F64.nan) :
    ∃ m, Max v = .ok m ∧
      (∃ (i : Nat) (hi : i < v.length), v[i] = m) ∧
      (∀ (j : Nat) (hj : j < v.length), v[j] ≤ m) := by
  obtain ⟨w, rfl⟩ := F64.exists_map_num v hnan
  have hw : w ≠ [] := by
    intro h
    exact hne (by rw [h]; rfl)
  obtain ⟨m, hm, ⟨i, hi, hvi⟩, hle⟩ := Max_spec_index w hw
  refine ⟨F64.num m, Max_map F64.num F64.num_le_num w m hm, ?_, ?_⟩
  · refine ⟨i, by rw [List.length_map]; exact hi, ?_⟩
    simp only [List.getElem_map, hvi]
  · intro j hj
    have hj2 : j < w.length := by rw [List.length_map] at hj; exact hj
    simp only [List.getElem_map]
    exact hle j hj2

/-- The contract of `Max_is_greatest_of_nan_free` at `[3, +Inf, -Inf]`, where `Max`
returns `+Inf`. -/
theorem Max_is_greatest_of_nan_free_witness :
    Max ([F64.num (Ext.fin 3), F64.num Ext.posInf, F64.num Ext.negInf] : List (F64 (Ext ℚ))) = .ok (F64.num Ext.posInf) ∧
    ∃ m, Max ([F64.num (Ext.fin 3), F64.num Ext.posInf, F64.num Ext.negInf] : List (F64 (Ext ℚ))) = .ok m ∧
      (∃ (i : Nat) (hi : i < ([F64.num (Ext.fin 3), F64.num Ext.posInf, F64.num Ext.negInf] : List (F64 (Ext ℚ))).length),
        ([F64.num (Ext.fin 3), F64.num Ext.posInf, F64.num Ext.negInf] : List (F64 (Ext ℚ)))[i] = m) ∧
      (∀ (j : Nat) (hj : j < ([F64.num (Ext.fin 3), F64.num Ext.posInf, F64.num Ext.negInf] : List (F64 (Ext ℚ))).length),
        ([F64.num (Ext.fin 3), F64.num Ext.posInf, F64.num Ext.negInf] : List (F64 (Ext ℚ)))[j] ≤ m) :=
  ⟨by rfl,
   Max_is_greatest_of_nan_free [F64.num (Ext.fin 3), F64.num Ext.posInf, F64.num Ext.negInf]
     (by simp) (by decide)⟩

/-! ## `Sum` -/

theorem foldl_add_eq {α : Type} [AddMonoid α] (v : List α) :
    ∀ a : α, v.foldl (fun s e => s + e) a = a + Sum v := by
  induction v with
  | nil => intro a; simp [Sum]
  | cons e es ih =>
    intro a
    unfold Sum
    rw [List.foldl_cons, List.foldl_cons, ih (a + e), ih (0 + e), zero_add, add_assoc]

/-- C9. `Sum` accumulates left to right from zero: `Sum [] = 0`, appending one
element adds it to the previous total, and `Sum (a ++ b) = Sum a + Sum b`. -/
theorem Sum_left_to_right {α : Type} [AddMonoid α] :
    Sum ([] : List α) = 0 ∧
    (∀ (v : List α) (x : α), Sum (v ++ [x]) = Sum v + x) ∧
    (∀ a b : List α, Sum (a ++ b) = Sum a + Sum b) := by
  refine ⟨rfl, ?_, ?_⟩
  · intro v x
    simp [Sum, List.foldl_append]
  · intro a b
    unfold Sum
    rw [List.foldl_append, foldl_add_eq b]
    rfl

/-! ## `SoftMax` -/

theorem foldl_add_map {α β : Type} [AddMonoid α] (f : β → α) (v : List β) :
    ∀ a : α, v.foldl (fun s e => s + f e) a = a + (v.map f).sum := by
  induction v with
  | nil => intro a; simp
  | cons e es ih =>
    intro a
    rw [List.foldl_cons, ih (a + f e), List.map_cons, List.sum_cons, add_assoc]

theorem softMaxSum_eq {α : Type} [LinearOrderedField α] (exp : α → α) (c : α) (v : List α) :
    softMaxSum exp c v = (v.map (fun e => exp (e - c))).sum := by
  unfold softMaxSum
  rw [foldl_add_map (fun e => exp (e - c)) v 0, zero_add]

theorem SoftMax_eq {α : Type} [LinearOrderedField α] (exp : α → α) (v : List α) (c : α)
    (hc : Max v = .ok c) :
    SoftMax exp v = .ok (v.map (fun e => exp (e - c) / softMaxSum exp c v)) := by
  unfold SoftMax
  rw [hc]

theorem sum_map_div {β : Type} (f : β → ℝ) (d : ℝ) (v : List β) :
    (v.map (fun e => f e / d)).sum = (v.map f).sum / d := by
  induction v with
  | nil => simp
  | cons e es ih => simp only [List.map_cons, List.sum_cons, ih, add_div]

theorem sum_exp_pos (v : List ℝ) (hne : v ≠ []) : 0 < (v.map Real.exp).sum := by
  apply List.sum_pos
  · intro y hy
    obtain ⟨e, _, rfl⟩ := List.mem_map.mp hy
    exact Real.exp_pos e
  · intro h
    exact hne (List.map_eq_nil_iff.mp h)

theorem SoftMax_eq_reference (v : List ℝ) (hne : v ≠ []) :
    SoftMax Real.exp v = .ok (softmaxReference Real.exp v) := by
  obtain ⟨c, hc, _, _⟩ := Max_spec v hne
  rw [SoftMax_eq Real.exp v c hc, softMaxSum_eq]
  unfold softmaxReference
  have hS := sum_exp_pos v hne
  have hfun : (fun e => Real.exp (e - c)) = (fun e => Real.exp e / Real.exp c) := by
    funext e
    exact Real.exp_sub e c
  rw [hfun, sum_map_div Real.exp (Real.exp c) v]
  congr 1
  apply List.map_congr_left
  intro e _
  have hcpos := Real.exp_pos c
  rw [Real.exp_sub]
  field_simp

/-- C5. Over the reals, for a non-empty slice `v`, `SoftMax v` returns a slice `sm`
of the length of `v` with `sm[i] = exp(v[i]) / Σ_j exp(v[j])` at every index (the
unstabilised reference softmax); its entries are positive and sum to `1`. -/
theorem SoftMax_refines_reference (v : List ℝ) (hne : v ≠ []) :
    ∃ sm, SoftMax Real.exp v = .ok sm ∧
      sm = softmaxReference Real.exp v ∧
      sm.length = v.length ∧
      (∀ (i : Nat) (hi : i < v.length) (hs : i < sm.length),
        sm[i] = Real.exp v[i] / (v.map Real.exp).sum) ∧
      (∀ y ∈ sm, 0 < y) ∧
      sm.sum = 1 := by
  have hS := sum_exp_pos v hne
  refine ⟨softmaxReference Real.exp v, SoftMax_eq_reference v hne, rfl, ?_, ?_, ?_, ?_⟩
  · simp [softmaxReference]
  · intro i hi hs
    simp [softmaxReference]
  · intro y hy
    obtain ⟨e, _, rfl⟩ := List.mem_map.mp hy
    exact div_pos (Real.exp_pos e) hS
  · unfold softmaxReference
    rw [sum_map_div Real.exp _ v]
    exact div_self (ne_of_gt hS)

/-- The contract of `SoftMax_refines_reference` at the slice `[0, 1]`. -/
theorem SoftMax_refines_reference_witness :
    ([0, 1] : List ℝ) ≠ [] ∧
    ∃ sm, SoftMax Real.exp ([0, 1] : List ℝ) = .ok sm ∧
      sm = softmaxReference Real.exp [0, 1] ∧
      sm.length = ([0, 1] : List ℝ).length ∧
      (∀ (i : Nat) (hi : i < ([0, 1] : List ℝ).length) (hs : i < sm.length),
        sm[i] = Real.exp ([0, 1] : List ℝ)[i] / (([0, 1] : List ℝ).map Real.exp).sum) ∧
      (∀ y ∈ sm, 0 < y) ∧
      sm.sum = 1 :=
  ⟨by simp, SoftMax_refines_reference [0, 1] (by simp)⟩

/-! ## float64 arithmetic -/

theorem Ext.fin_le_fin {α : Type} [LinearOrder α] (x y : α) :
    (Ext.fin x ≤ Ext.fin y) ↔ x ≤ y := by
  show Ext.toLine (Ext.fin x) ≤ Ext.toLine (Ext.fin y) ↔ x ≤ y
  simp [Ext.toLine]

theorem Ext.le_posInf {α : Type} [LinearOrder α] (a : Ext α) : a ≤ Ext.posInf := by
  show Ext.toLine a ≤ Ext.toLine Ext.posInf
  cases a <;> simp [Ext.toLine]

theorem Ext.not_fin_le_negInf {α : Type} [LinearOrder α] (x : α) :
    ¬ (Ext.fin x ≤ Ext.negInf) := by
  show ¬ (Ext.toLine (Ext.fin x) ≤ Ext.toLine Ext.negInf)
  simp [Ext.toLine]

theorem F64.finite_le_finite {α : Type} [LinearOrder α] (x y : α) :
    (F64.finite x ≤ F64.finite y) ↔ x ≤ y :=
  Ext.fin_le_fin x y

theorem F64.zero_eq {α : Type} [Zero α] : (0 : F64 (Ext α)) = F64.finite 0 := rfl

theorem F64.finite_sub {α : Type} [Sub α] (x y : α) :
    F64.finite x - F64.finite y = F64.finite (x - y) := rfl

theorem F64.finite_add {α : Type} [Add α] (x y : α) :
    F64.finite x + F64.finite y = F64.finite (x + y) := rfl

theorem F64.finite_div {α : Type} [LinearOrderedField α] (x y : α) (hy : y ≠ 0) :
    F64.finite x / F64.finite y = F64.finite (x / y) := by
  show F64.div (F64.num (Ext.fin x)) (F64.num (Ext.fin y)) = _
  simp only [F64.div, if_neg hy]
  rfl

theorem F64.nonneg_cases {α : Type} [LinearOrderedField α] (p : F64 (Ext α))
    (hp : F64.finite 0 ≤ p) : (∃ x : α, 0 ≤ x ∧ p = F64.finite x) ∨ p = F64.num Ext.posInf := by
  cases p with
  | nan => exact absurd hp (fun h => h)
  | num e =>
    cases e with
    | negInf => exact absurd hp (Ext.not_fin_le_negInf 0)
    | fin x => exact Or.inl ⟨x, (Ext.fin_le_fin 0 x).mp hp, rfl⟩
    | posInf => exact Or.inr rfl

theorem F64.add_bounds {α : Type} [LinearOrderedField α] (p q : F64 (Ext α))
    (hp : F64.finite 0 ≤ p) (hq : F64.finite 0 ≤ q) :
    F64.finite 0 ≤ p + q ∧
    (F64.finite 1 ≤ p → F64.finite 1 ≤ p + q) ∧
    (F64.finite 1 ≤ q → F64.finite 1 ≤ p + q) := by
  rcases F64.nonneg_cases p hp with ⟨x, hx, rfl⟩ | rfl <;>
    rcases F64.nonneg_cases q hq with ⟨y, hy, rfl⟩ | rfl
  · rw [F64.finite_add]
    refine ⟨(F64.finite_le_finite _ _).mpr (add_nonneg hx hy), ?_, ?_⟩
    · intro h
      have := (F64.finite_le_finite _ _).mp h
      exact (F64.finite_le_finite _ _).mpr (by linarith)
    · intro h
      have := (F64.finite_le_finite _ _).mp h
      exact (F64.finite_le_finite _ _).mpr (by linarith)
  · have h : F64.finite x + F64.num Ext.posInf = F64.num Ext.posInf := rfl
    rw [h]
    exact ⟨Ext.le_posInf _, fun _ => Ext.le_posInf _, fun _ => Ext.le_posInf _⟩
  · have h : (F64.num Ext.posInf : F64 (Ext α)) + F64.finite y = F64.num Ext.posInf := rfl
    rw [h]
    exact ⟨Ext.le_posInf _, fun _ => Ext.le_posInf _, fun _ => Ext.le_posInf _⟩
  · have h : (F64.num Ext.posInf : F64 (Ext α)) + F64.num Ext.posInf = F64.num Ext.posInf := rfl
    rw [h]
    exact ⟨Ext.le_posInf _, fun _ => Ext.le_posInf _, fun _ => Ext.le_posInf _⟩

theorem F64.foldl_add_bounds {α : Type} [LinearOrderedField α] (ts : List (F64 (Ext α)))
    (hts : ∀ t ∈ ts, F64.finite 0 ≤ t) :
    ∀ acc : F64 (Ext α), F64.finite 0 ≤ acc →
      F64.finite 0 ≤ ts.foldl (fun s y => s + y) acc ∧
      (F64.finite 1 ≤ acc ∨ (∃ t ∈ ts, F64.finite 1 ≤ t) →
        F64.finite 1 ≤ ts.foldl (fun s y => s + y) acc) := by
  induction ts with
  | nil =>
    intro acc hacc
    refine ⟨hacc, ?_⟩
    rintro (h | ⟨t, ht, _⟩)
    · exact h
    · simp at ht
  | cons t ts ih =>
    intro acc hacc
    have ht : F64.finite 0 ≤ t := hts t (List.mem_cons_self t ts)
    obtain ⟨h0, h1, h2⟩ := F64.add_bounds acc t hacc ht
    obtain ⟨ih0, ih1⟩ := ih (fun u hu => hts u (List.mem_cons_of_mem t hu)) (acc + t) h0
    refine ⟨ih0, ?_⟩
    rintro (h | ⟨u, hu, hu1⟩)
    · exact ih1 (Or.inl (h1 h))
    · rcases List.mem_cons.mp hu with rfl | hmem
      · exact ih1 (Or.inl (h2 hu1))
      · exact ih1 (Or.inr ⟨u, hmem, hu1⟩)


/-! ## `SoftMax` on float64 values -/

theorem SoftMax_unfold {α : Type} [LE α] [DecidableRel (fun a b : α => a ≤ b)]
    [Zero α] [Add α] [Sub α] [Div α] (exp : α → α) (v : List α) (c : α)
    (hc : Max v = .ok c) :
    SoftMax exp v = .ok ((v.map (fun e => e - c)).map (fun a => exp a / softMaxSum exp c v)) := by
  unfold SoftMax
  rw [hc, List.map_map]
  rfl

theorem softMaxSum_unfold {α : Type} [Zero α] [Add α] [Sub α] (exp : α → α) (c : α)
    (v : List α) :
    softMaxSum exp c v = ((v.map (fun e => e - c)).map exp).foldl (fun s y => s + y) 0 := by
  unfold softMaxSum
  rw [List.map_map, List.foldl_map]
  rfl

theorem F64.exists_map_finite {α : Type} (v : List (F64 (Ext α)))
    (hfin : ∀ x ∈ v, ∃ r : α, x = F64.finite r) :
    ∃ w : List α, v = w.map F64.finite := by
  induction v with
  | nil => exact ⟨[], rfl⟩
  | cons a v ih =>
    obtain ⟨w, hw⟩ := ih (fun x hx => hfin x (List.mem_cons_of_mem a hx))
    obtain ⟨r, hr⟩ := hfin a (List.mem_cons_self a v)
    exact ⟨r :: w, by rw [hw, hr]; rfl⟩

theorem foldl_maxStep_replicate {α : Type} [LE α] [DecidableRel (fun a b : α => a ≤ b)]
    (n : Nat) (x : α) : (List.replicate n x).foldl maxStep x = x := by
  induction n with
  | zero => rfl
  | succ n ih =>
    have hs : maxStep x x = x := by
      unfold maxStep
      by_cases h : x ≤ x
      · rw [if_pos h]
      · rw [if_neg h]
    rw [List.replicate_succ, List.foldl_cons, hs, ih]

theorem Max_replicate {α : Type} [LE α] [DecidableRel (fun a b : α => a ≤ b)]
    (n : Nat) (x : α) (hn : 1 ≤ n) : Max (List.replicate n x) = .ok x := by
  have hne : List.replicate n x ≠ [] := by
    intro h
    have hl := congrArg List.length h
    simp at hl
    omega
  unfold Max
  rw [index_last _ hne]
  have hlast : (List.replicate n x).getLast hne = x :=
    List.eq_of_mem_replicate (List.getLast_mem hne)
  show Except.ok ((List.replicate n x).foldl maxStep ((List.replicate n x).getLast hne)) = _
  rw [hlast, foldl_maxStep_replicate]

theorem softMaxSum_replicate {α : Type} [LinearOrderedField α]
    (exp : F64 (Ext α) → F64 (Ext α)) (h0 : exp (F64.finite 0) = F64.finite 1) (c : α)
    (n : Nat) :
    ∀ k : α, (List.replicate n (F64.finite c)).foldl
        (fun sum e => sum + exp (e - F64.finite c)) (F64.finite k) = F64.finite (k + n) := by
  induction n with
  | zero => intro k; simp
  | succ n ih =>
    intro k
    rw [List.replicate_succ, List.foldl_cons, F64.finite_sub, sub_self, h0, F64.finite_add,
      ih (k + 1)]
    push_cast
    congr 1
    ring

/-- C3, amended. `SoftMax` of `n ≥ 1` copies of a finite value `c` is `n` copies of
`1 / n`, however large `c` is: the exponential is only asked for `Exp(0) = 1`, so the
result does not depend on what it returns (or whether it overflows) anywhere else. -/
theorem SoftMax_constant_uniform_of_finite {α : Type} [LinearOrderedField α]
    (exp : F64 (Ext α) → F64 (Ext α)) (h0 : exp (F64.finite 0) = F64.finite 1)
    (n : Nat) (c : α) (hn : 1 ≤ n) :
    SoftMax exp (List.replicate n (F64.finite c)) =
      .ok (List.replicate n (F64.finite (1 / (n : α)))) := by
  have hsum : softMaxSum exp (F64.finite c) (List.replicate n (F64.finite c)) =
      F64.finite (n : α) := by
    unfold softMaxSum
    have := softMaxSum_replicate exp h0 c n 0
    rw [zero_add] at this
    exact this
  have hn0 : (n : α) ≠ 0 := by
    have : (0 : α) < n := by exact_mod_cast hn
    exact ne_of_gt this
  rw [SoftMax_unfold exp _ _ (Max_replicate n (F64.finite c) hn), hsum]
  simp only [List.map_replicate, F64.finite_sub, sub_self, h0, F64.finite_div _ _ hn0]

/-- C3, as stated, fails at `c = +Inf`: `c - c` is NaN, so `SoftMax [+Inf, +Inf, +Inf]`
is `[NaN, NaN, NaN]`, not `[1/3, 1/3, 1/3]`. -/
theorem SoftMax_constant_nan_at_posInf :
    SoftMax (liftExp Real.exp) (List.replicate 3 (F64.num Ext.posInf : F64 (Ext ℝ))) =
      .ok (List.replicate 3 F64.nan) ∧
    SoftMax (liftExp Real.exp) (List.replicate 3 (F64.num Ext.posInf : F64 (Ext ℝ))) ≠
      .ok (List.replicate 3 (F64.finite (1 / ((3 : Nat) : ℝ)))) := by
  have h : SoftMax (liftExp Real.exp) (List.replicate 3 (F64.num Ext.posInf : F64 (Ext ℝ))) =
      .ok (List.replicate 3 F64.nan) := rfl
  refine ⟨h, ?_⟩
  rw [h]
  intro hc
  have h2 := Except.ok.inj hc
  simp [List.replicate, F64.finite] at h2

theorem liftExp_exp_zero : liftExp Real.exp (F64.finite 0) = F64.finite 1 := by
  show F64.finite (Real.exp 0) = F64.finite 1
  rw [Real.exp_zero]

/-- The stability example of C3: `SoftMax [1000, 1000, 1000] = [1/3, 1/3, 1/3]` on
float64 values, with `math.Exp` read as the real exponential and its special cases. -/
theorem SoftMax_constant_uniform_of_finite_witness :
    liftExp Real.exp (F64.finite 0) = F64.finite 1 ∧ 1 ≤ 3 ∧
    SoftMax (liftExp Real.exp) [F64.finite 1000, F64.finite 1000, F64.finite 1000] =
      .ok [F64.finite (1 / 3), F64.finite (1 / 3), F64.finite (1 / 3)] :=
  ⟨liftExp_exp_zero, by decide,
   by simpa [List.replicate] using
     SoftMax_constant_uniform_of_finite (liftExp Real.exp) liftExp_exp_zero 3 (1000 : ℝ)
       (by decide)⟩

theorem liftExp_nonneg (a : F64 (Ext ℝ)) (ha : a ≤ 0) : 0 ≤ liftExp Real.exp a := by
  cases a with
  | nan => exact absurd ha (fun h => h)
  | num e =>
    cases e with
    | negInf => exact (F64.finite_le_finite (0 : ℝ) 0).mpr (le_refl 0)
    | fin x => exact (F64.finite_le_finite (0 : ℝ) _).mpr (le_of_lt (Real.exp_pos x))
    | posInf => exact Ext.le_posInf _

/-- C7. The optimization level selects the fidelity of `Tanh`: level `1` gives
`tanhVarietyOfSound`, level `2` gives `tanhAnguita`, level `0` gives the exact
hyperbolic tangent, and so does every other level (negative or above `2`). -/
theorem Tanh_levels {σ : Type} (g : Process σ) (x : ℝ) :
    (MathOptimizationLevel g = 1 → Tanh Real.tanh g x = tanhVarietyOfSound x) ∧
    (MathOptimizationLevel g = 2 → Tanh Real.tanh g x = tanhAnguita x) ∧
    (MathOptimizationLevel g = 0 → Tanh Real.tanh g x = Real.tanh x) ∧
    (MathOptimizationLevel g < 0 ∨ 2 < MathOptimizationLevel g →
      Tanh Real.tanh g x = Real.tanh x) := by
  refine ⟨?_, ?_, ?_, ?_⟩
  · intro h
    unfold Tanh
    rw [if_pos h]
  · intro h
    have h1 : ¬ MathOptimizationLevel g = 1 := by omega
    unfold Tanh
    rw [if_neg h1, if_pos h]
  · intro h
    have h1 : ¬ MathOptimizationLevel g = 1 := by omega
    have h2 : ¬ MathOptimizationLevel g = 2 := by omega
    unfold Tanh
    rw [if_neg h1, if_neg h2]
  · intro h
    have h1 : ¬ MathOptimizationLevel g = 1 := by omega
    have h2 : ¬ MathOptimizationLevel g = 2 := by omega
    unfold Tanh
    rw [if_neg h1, if_neg h2]

/-- The four cases of `Tanh_levels` at `x = 1`, at the levels `1`, `2`, `0`, `3` and `-1`. -/
theorem Tanh_levels_witness :
    Tanh Real.tanh (⟨1, ()⟩ : Process Unit) 1 = tanhVarietyOfSound 1 ∧
    Tanh Real.tanh (⟨2, ()⟩ : Process Unit) 1 = tanhAnguita 1 ∧
    Tanh Real.tanh (⟨0, ()⟩ : Process Unit) 1 = Real.tanh 1 ∧
    Tanh Real.tanh (⟨3, ()⟩ : Process Unit) 1 = Real.tanh 1 ∧
    Tanh Real.tanh (⟨-1, ()⟩ : Process Unit) 1 = Real.tanh 1 :=
  ⟨(Tanh_levels ⟨1, ()⟩ 1).1 rfl,
   (Tanh_levels ⟨2, ()⟩ 1).2.1 rfl,
   (Tanh_levels ⟨0, ()⟩ 1).2.2.1 rfl,
   (Tanh_levels ⟨3, ()⟩ 1).2.2.2 (Or.inr (by decide)),
   (Tanh_levels ⟨-1, ()⟩ 1).2.2.2 (Or.inl (by decide))⟩

/-- C8, as stated, fails: at `x = 1` two process states that differ in the
optimization level (`1` against `2`) make `Tanh 1` return different values. -/
theorem Tanh_depends_on_process_state :
    Tanh Real.tanh (⟨1, ()⟩ : Process Unit) (1 : ℝ) ≠
      Tanh Real.tanh (⟨2, ()⟩ : Process Unit) (1 : ℝ) := by
  simp only [Tanh, MathOptimizationLevel, tanhVarietyOfSound, tanhAnguita]
  norm_num

theorem tanh_lt_one (x : ℝ) : Real.tanh x < 1 := by
  rw [Real.tanh_eq_sinh_div_cosh]
  exact (div_lt_one (Real.cosh_pos x)).mpr (Real.sinh_lt_cosh x)

theorem tanhVarietyOfSound_ne_tanhAnguita :
    tanhVarietyOfSound (1 : ℝ) ≠ tanhAnguita (1 : ℝ) := by
  simp only [tanhVarietyOfSound, tanhAnguita]
  norm_num

theorem tanhVarietyOfSound_ne_tanh : tanhVarietyOfSound (10 : ℝ) ≠ Real.tanh 10 := by
  have h1 : (1 : ℝ) < tanhVarietyOfSound (10 : ℝ) := by
    simp only [tanhVarietyOfSound]
    norm_num
  exact ne_of_gt (lt_trans (tanh_lt_one 10) h1)

theorem tanhAnguita_ne_tanh : tanhAnguita (0 : ℝ) ≠ Real.tanh 0 := by
  rw [Real.tanh_zero]
  simp only [tanhAnguita]
  norm_num

theorem Tanh_cases {σ : Type} (g : Process σ) :
    (MathOptimizationLevel g = 1 ∧ ∀ x : ℝ, Tanh Real.tanh g x = tanhVarietyOfSound x) ∨
    (¬ MathOptimizationLevel g = 1 ∧ MathOptimizationLevel g = 2 ∧
      ∀ x : ℝ, Tanh Real.tanh g x = tanhAnguita x) ∨
    (¬ MathOptimizationLevel g = 1 ∧ ¬ MathOptimizationLevel g = 2 ∧
      ∀ x : ℝ, Tanh Real.tanh g x = Real.tanh x) := by
  by_cases h1 : MathOptimizationLevel g = 1
  · left
    refine ⟨h1, fun x => ?_⟩
    unfold Tanh
    rw [if_pos h1]
  · right
    by_cases h2 : MathOptimizationLevel g = 2
    · left
      refine ⟨h1, h2, fun x => ?_⟩
      unfold Tanh
      rw [if_neg h1, if_pos h2]
    · right
      refine ⟨h1, h2, fun x => ?_⟩
      unfold Tanh
      rw [if_neg h1, if_neg h2]

/-- C8, amended. `Tanh` is not stateless: its result is determined by `x` and by the
process-wide optimization level, and by nothing else in the process state. Two process
states give the same `Tanh x` at every `x` exactly when their levels select the same
case of the switch (both `1`, both `2`, or both any other value). -/
theorem Tanh_same_iff_same_case {σ : Type} (g1 g2 : Process σ) :
    (∀ x : ℝ, Tanh Real.tanh g1 x = Tanh Real.tanh g2 x) ↔
      ((MathOptimizationLevel g1 = 1 ↔ MathOptimizationLevel g2 = 1) ∧
       (MathOptimizationLevel g1 = 2 ↔ MathOptimizationLevel g2 = 2)) := by
  constructor
  · intro h
    rcases Tanh_cases g1 with ⟨a1, f1⟩ | ⟨a1, a2, f1⟩ | ⟨a1, a2, f1⟩ <;>
      rcases Tanh_cases g2 with ⟨b1, f2⟩ | ⟨b1, b2, f2⟩ | ⟨b1, b2, f2⟩
    · exact ⟨iff_of_true a1 b1, by constructor <;> intro h2 <;> omega⟩
    · exact absurd ((f1 1).symm.trans ((h 1).trans (f2 1))) tanhVarietyOfSound_ne_tanhAnguita
    · exact absurd ((f1 10).symm.trans ((h 10).trans (f2 10))) tanhVarietyOfSound_ne_tanh
    · exact absurd ((f2 1).symm.trans ((h 1).symm.trans (f1 1)))
        tanhVarietyOfSound_ne_tanhAnguita
    · exact ⟨iff_of_false a1 b1, iff_of_true a2 b2⟩
    · exact absurd ((f1 0).symm.trans ((h 0).trans (f2 0))) tanhAnguita_ne_tanh
    · exact absurd ((f2 10).symm.trans ((h 10).symm.trans (f1 10))) tanhVarietyOfSound_ne_tanh
    · exact absurd ((f2 0).symm.trans ((h 0).symm.trans (f1 0))) tanhAnguita_ne_tanh
    · exact ⟨iff_of_false a1 b1, iff_of_false a2 b2⟩
  · rintro ⟨h1, h2⟩ x
    unfold Tanh
    by_cases a1 : MathOptimizationLevel g1 = 1
    · rw [if_pos a1, if_pos (h1.mp a1)]
    · have b1 : ¬ MathOptimizationLevel g2 = 1 := fun h => a1 (h1.mpr h)
      rw [if_neg a1, if_neg b1]
      by_cases a2 : MathOptimizationLevel g1 = 2
      · rw [if_pos a2, if_pos (h2.mp a2)]
      · have b2 : ¬ MathOptimizationLevel g2 = 2 := fun h => a2 (h2.mpr h)
        rw [if_neg a2, if_neg b2]

/-- Two process states with levels `0` and `7` and different remaining state both take
the default case, so they agree on `Tanh 1`. -/
theorem Tanh_same_iff_same_case_witness :
    Tanh Real.tanh (⟨0, 0⟩ : Process Nat) (1 : ℝ) = Tanh Real.tanh (⟨7, 5⟩ : Process Nat) 1 :=
  (Tanh_same_iff_same_case ⟨0, 0⟩ ⟨7, 5⟩).mpr ⟨by decide, by decide⟩ 1

/-! ## Failure on the empty slice -/

/-- C11. `Max` fails with an index-out-of-range panic on the empty slice, and so does
`SoftMax`, which calls `Max` first; on every non-empty slice both return a result. -/
theorem Max_SoftMax_defined_on_nonempty {α : Type} [LinearOrderedField α] (exp : α → α) :
    Max ([] : List α) = .error .indexOutOfRange ∧
    SoftMax exp ([] : List α) = .error .indexOutOfRange ∧
    (∀ v : List α, v ≠ [] → (∃ m, Max v = .ok m) ∧ (∃ sm, SoftMax exp v = .ok sm)) := by
  refine ⟨rfl, rfl, ?_⟩
  intro v hne
  obtain ⟨m, hm, _, _⟩ := Max_spec v hne
  exact ⟨⟨m, hm⟩, ⟨_, SoftMax_eq exp v m hm⟩⟩

/-- The non-empty case of `Max_SoftMax_defined_on_nonempty` at `[3, 5, 5, 1]`, with a
constant function in the place of the exponential. -/
theorem Max_SoftMax_defined_on_nonempty_witness :
    ([3, 5, 5, 1] : List ℚ) ≠ [] ∧
    (∃ m, Max ([3, 5, 5, 1] : List ℚ) = .ok m) ∧
    (∃ sm, SoftMax (fun _ => (1 : ℚ)) [3, 5, 5, 1] = .ok sm) :=
  ⟨by simp, (Max_SoftMax_defined_on_nonempty (fun _ => (1 : ℚ))).2.2 [3, 5, 5, 1] (by simp)⟩

/-- C12. On the empty slice `ArgMinMax` returns `(0, 0)`, so `ArgMax` and `ArgMin`
return `0`, which is not a valid index there; on a non-empty slice both indices are
valid; hence a returned index is out of range exactly when the input is empty. -/
theorem ArgMinMax_index_in_range_iff {α : Type} [LinearOrder α] :
    ArgMinMax ([] : List α) = (0, 0) ∧
    ArgMax ([] : List α) = 0 ∧
    ArgMin ([] : List α) = 0 ∧
    ¬ (ArgMax ([] : List α) < ([] : List α).length) ∧
    ¬ (ArgMin ([] : List α) < ([] : List α).length) ∧
    (∀ v : List α, v ≠ [] → (ArgMinMax v).1 < v.length ∧ (ArgMinMax v).2 < v.length) ∧
    (∀ v : List α, (¬ ArgMax v < v.length ↔ v = []) ∧ (¬ ArgMin v < v.length ↔ v = [])) := by
  have hvalid : ∀ v : List α, v ≠ [] →
      (ArgMinMax v).1 < v.length ∧ (ArgMinMax v).2 < v.length := by
    intro v hne
    cases v with
    | nil => exact absurd rfl hne
    | cons v0 rest =>
      obtain ⟨⟨hmax, _, _⟩, hmin, _, _⟩ := ArgMinMax_inv v0 rest
      exact ⟨getElem?_lt_length _ _ _ hmin, getElem?_lt_length _ _ _ hmax⟩
  refine ⟨rfl, rfl, rfl, by simp, by simp, hvalid, ?_⟩
  intro v
  constructor
  · constructor
    · intro h
      by_contra hne
      exact h (hvalid v hne).2
    · intro h
      subst h
      simp
  · constructor
    · intro h
      by_contra hne
      exact h (hvalid v hne).1
    · intro h
      subst h
      simp

/-- The non-empty case of `ArgMinMax_index_in_range_iff` at `[3, 5, 5, 1]`, where
`ArgMinMax` returns `(3, 1)`. -/
theorem ArgMinMax_index_in_range_iff_witness :
    ArgMinMax ([3, 5, 5, 1] : List ℚ) = (3, 1) ∧
    ([3, 5, 5, 1] : List ℚ) ≠ [] ∧
    (ArgMinMax ([3, 5, 5, 1] : List ℚ)).1 < ([3, 5, 5, 1] : List ℚ).length ∧
    (ArgMinMax ([3, 5, 5, 1] : List ℚ)).2 < ([3, 5, 5, 1] : List ℚ).length :=
  ⟨by decide, by simp, ArgMinMax_index_in_range_iff.2.2.2.2.2.1 [3, 5, 5, 1] (by simp)⟩

/-! ## The approximations of `tanh` -/

/-- C16. The denominator `b` of `tanhVarietyOfSound` is at least `135135`, hence
positive and non-zero, at every `x`, and `tanhVarietyOfSound x` is the quotient `a / b`. -/
theorem tanhVarietyOfSound_denominator_pos {α : Type} [LinearOrderedField α] (x : α) :
    tanhVarietyOfSoundDen x = 135135 + x ^ 2 * (62370 + x ^ 2 * (3150 + 28 * x ^ 2)) ∧
    135135 ≤ tanhVarietyOfSoundDen x ∧
    0 < tanhVarietyOfSoundDen x ∧
    tanhVarietyOfSoundDen x ≠ 0 ∧
    tanhVarietyOfSound x = tanhVarietyOfSoundNum x / tanhVarietyOfSoundDen x := by
  have hform : tanhVarietyOfSoundDen x =
      135135 + x ^ 2 * (62370 + x ^ 2 * (3150 + 28 * x ^ 2)) := by
    simp only [tanhVarietyOfSoundDen]
    norm_num
    ring
  have hx2 : 0 ≤ x ^ 2 := sq_nonneg x
  have hge : (135135 : α) ≤ tanhVarietyOfSoundDen x := by
    rw [hform]
    have h1 : 0 ≤ x ^ 2 * (62370 + x ^ 2 * (3150 + 28 * x ^ 2)) := by positivity
    linarith
  have hpos : 0 < tanhVarietyOfSoundDen x := lt_of_lt_of_le (by norm_num) hge
  exact ⟨hform, hge, hpos, ne_of_gt hpos, rfl⟩

theorem tanhAnguita_of_gt {α : Type} [LinearOrderedField α] (x : α) (h : 1.92033 < x) :
    tanhAnguita x = 0.96016 := by
  unfold tanhAnguita
  rw [if_pos h]

theorem tanhAnguita_of_pos {α : Type} [LinearOrderedField α] (x : α) (h0 : 0 < x)
    (h1 : x ≤ 1.92033) :
    tanhAnguita x = 0.96016 - 0.26037 * (x - 1.92033) * (x - 1.92033) := by
  unfold tanhAnguita
  rw [if_neg (not_lt.mpr h1), if_pos h0]

theorem tanhAnguita_of_le {α : Type} [LinearOrderedField α] (x : α) (h : x ≤ -1.92033) :
    tanhAnguita x = -0.96016 := by
  have ha : (0 : α) < 1.92033 := by norm_num
  unfold tanhAnguita
  rw [if_neg (by rw [gt_iff_lt, not_lt]; linarith), if_neg (by rw [gt_iff_lt, not_lt]; linarith), if_pos h]

theorem tanhAnguita_of_nonpos {α : Type} [LinearOrderedField α] (x : α) (h0 : x ≤ 0)
    (h1 : -1.92033 < x) :
    tanhAnguita x = 0.26037 * (x + 1.92033) * (x + 1.92033) - 0.96016 := by
  have ha : (0 : α) < 1.92033 := by norm_num
  unfold tanhAnguita
  rw [if_neg (by rw [gt_iff_lt, not_lt]; linarith), if_neg (by rw [gt_iff_lt, not_lt]; linarith), if_neg (not_le.mpr h1)]

theorem tanhAnguita_ge {α : Type} [LinearOrderedField α] (x : α) :
    -0.96016 ≤ tanhAnguita x := by
  have ha : (0 : α) < 1.92033 := by norm_num
  rcases lt_or_le (1.92033 : α) x with h4 | h4
  · rw [tanhAnguita_of_gt x h4]; norm_num
  rcases lt_or_le (0 : α) x with h3 | h3
  · rw [tanhAnguita_of_pos x h3 h4]
    nlinarith [mul_nonneg (le_of_lt h3) (sub_nonneg.mpr h4)]
  rcases le_or_lt x (-1.92033 : α) with h1 | h1
  · rw [tanhAnguita_of_le x h1]
  · rw [tanhAnguita_of_nonpos x h3 h1]
    nlinarith [mul_self_nonneg (x + 1.92033)]

theorem tanhAnguita_le {α : Type} [LinearOrderedField α] (x : α) :
    tanhAnguita x ≤ 0.96016 := by
  have ha : (0 : α) < 1.92033 := by norm_num
  rcases lt_or_le (1.92033 : α) x with h4 | h4
  · rw [tanhAnguita_of_gt x h4]
  rcases lt_or_le (0 : α) x with h3 | h3
  · rw [tanhAnguita_of_pos x h3 h4]
    nlinarith [mul_self_nonneg (x - 1.92033)]
  rcases le_or_lt x (-1.92033 : α) with h1 | h1
  · rw [tanhAnguita_of_le x h1]; norm_num
  · rw [tanhAnguita_of_nonpos x h3 h1]
    have hx : 0 < x + 1.92033 := by linarith
    nlinarith [mul_nonneg (le_of_lt hx) (neg_nonneg.mpr h3)]

/-- C14, as stated, fails at `x = 0`: the default branch gives
`tanhAnguita 0 = 0.26037 * 1.92033 ^ 2 - 0.96016`, which is not `0`, so
`tanhAnguita (-0)` and `-tanhAnguita 0` differ. -/
theorem tanhAnguita_not_odd_at_zero :
    tanhAnguita (-(0 : ℚ)) ≠ -tanhAnguita (0 : ℚ) ∧ tanhAnguita (0 : ℚ) ≠ 0 := by
  rw [neg_zero, tanhAnguita_of_nonpos 0 (le_refl 0) (by norm_num)]
  norm_num

/-- C14, amended. Over any ordered field, in particular over `ℚ`, `tanhAnguita` is
odd away from the origin: `tanhAnguita (-x) = -tanhAnguita x` for every `x ≠ 0`. -/
theorem tanhAnguita_odd_of_ne_zero {α : Type} [LinearOrderedField α] (x : α) (hx : x ≠ 0) :
    tanhAnguita (-x) = -tanhAnguita x := by
  have ha : (0 : α) < 1.92033 := by norm_num
  rcases lt_or_le (1.92033 : α) x with h4 | h4
  · rw [tanhAnguita_of_gt x h4, tanhAnguita_of_le (-x) (by linarith)]
  rcases lt_or_le (0 : α) x with h3 | h3
  · rw [tanhAnguita_of_pos x h3 h4]
    rcases eq_or_lt_of_le h4 with h5 | h5
    · rw [tanhAnguita_of_le (-x) (by linarith), h5]
      norm_num
    · rw [tanhAnguita_of_nonpos (-x) (by linarith) (by linarith)]
      ring
  have h3lt : x < 0 := lt_of_le_of_ne h3 hx
  rcases le_or_lt x (-1.92033 : α) with h1 | h1
  · rw [tanhAnguita_of_le x h1]
    rcases eq_or_lt_of_le h1 with h5 | h5
    · rw [tanhAnguita_of_pos (-x) (by linarith) (by linarith), h5]
      norm_num
    · rw [tanhAnguita_of_gt (-x) (by linarith)]
      norm_num
  · rw [tanhAnguita_of_nonpos x h3 h1, tanhAnguita_of_pos (-x) (by linarith) (by linarith)]
    ring

/-- The identity of `tanhAnguita_odd_of_ne_zero` at `x = 1`, inside the quadratic branches. -/
theorem tanhAnguita_odd_of_ne_zero_witness :
    (1 : ℚ) ≠ 0 ∧ tanhAnguita (-(1 : ℚ)) = -tanhAnguita (1 : ℚ) :=
  ⟨by decide, tanhAnguita_odd_of_ne_zero 1 (by decide)⟩

/-- C15. `tanhAnguita` is monotonically non-decreasing over any ordered field, in
particular over `ℚ`: `x ≤ y` gives `tanhAnguita x ≤ tanhAnguita y`, within each of
the four branches and across the boundaries at `-1.92033`, `0` and `1.92033`. -/
theorem tanhAnguita_monotone {α : Type} [LinearOrderedField α] (x y : α) (hxy : x ≤ y) :
    tanhAnguita x ≤ tanhAnguita y := by
  have ha : (0 : α) < 1.92033 := by norm_num
  rcases lt_or_le (1.92033 : α) y with hy4 | hy4
  · rw [tanhAnguita_of_gt y hy4]; exact tanhAnguita_le x
  rcases le_or_lt x (-1.92033 : α) with hx1 | hx1
  · rw [tanhAnguita_of_le x hx1]; exact tanhAnguita_ge y
  rcases lt_or_le (0 : α) x with hx3 | hx3
  · have hy3 : 0 < y := lt_of_lt_of_le hx3 hxy
    rw [tanhAnguita_of_pos x hx3 (le_trans hxy hy4), tanhAnguita_of_pos y hy3 hy4]
    nlinarith [mul_nonneg (sub_nonneg.mpr hxy) (sub_nonneg.mpr hy4)]
  rw [tanhAnguita_of_nonpos x hx3 hx1]
  have hxa : 0 < x + 1.92033 := by linarith
  rcases lt_or_le (0 : α) y with hy3 | hy3
  · rw [tanhAnguita_of_pos y hy3 hy4]
    nlinarith [mul_nonneg (le_of_lt hxa) (neg_nonneg.mpr hx3),
      mul_nonneg (le_of_lt hy3) (sub_nonneg.mpr hy4)]
  · rw [tanhAnguita_of_nonpos y hy3 (lt_of_lt_of_le hx1 hxy)]
    nlinarith [mul_nonneg (sub_nonneg.mpr hxy) (le_of_lt hxa)]

/-- The inequality of `tanhAnguita_monotone` across the boundary at `0`. -/
theorem tanhAnguita_monotone_witness :
    (0 : ℚ) ≤ 1 ∧ tanhAnguita (0 : ℚ) ≤ tanhAnguita (1 : ℚ) :=
  ⟨by decide, tanhAnguita_monotone 0 1 (by decide)⟩

/-! ## `StrToFloat64Slice` -/

theorem fieldsAux_all_space (cs : List Char) (h : ∀ c ∈ cs, isSpace c = true) :
    fieldsAux cs [] = [] := by
  induction cs with
  | nil => rfl
  | cons c cs ih =>
    have hc : isSpace c = true := h c (List.mem_cons_self c cs)
    have hcs : ∀ d ∈ cs, isSpace d = true := fun d hd => h d (List.mem_cons_of_mem c hd)
    simp only [fieldsAux, hc, if_true, List.isEmpty_nil]
    exact ih hcs

theorem parseLoop_fail {α ε : Type} (parseFloat : String → Except ε α)
    (f : String) (post : List String) (err : ε) (hf : parseFloat f = .error err)
    (pre : List String) :
    ∀ (i : Nat) (data : List α), (∀ g ∈ pre, ∃ x, parseFloat g = .ok x) →
      parseLoop parseFloat (pre ++ f :: post) i data = (none, some err) := by
  induction pre with
  | nil =>
    intro i data _
    simp only [List.nil_append, parseLoop, hf]
  | cons g pre ih =>
    intro i data hpre
    obtain ⟨x, hx⟩ := hpre g (List.mem_cons_self g pre)
    simp only [List.cons_append, parseLoop, hx]
    exact ih (i + 1) (data.set i x) (fun k hk => hpre k (List.mem_cons_of_mem g hk))

theorem set_append_replicate {α : Type} (done : List α) (n : Nat) (z x : α) :
    (done ++ List.replicate (n + 1) z).set done.length x =
      (done ++ [x]) ++ List.replicate n z := by
  induction done with
  | nil => simp [List.replicate_succ]
  | cons d ds ih =>
    simp only [List.cons_append, List.length_cons, List.set_cons_succ, ih]

theorem parseLoop_ok {α ε : Type} (parseFloat : String → Except ε α) (z : α)
    (rest : List String) :
    ∀ (xs done : List α), rest.map parseFloat = xs.map Except.ok →
      parseLoop parseFloat rest done.length (done ++ List.replicate rest.length z) =
        (some (done ++ xs), none) := by
  induction rest with
  | nil =>
    intro xs done h
    cases xs with
    | nil => simp [parseLoop]
    | cons x xs => simp at h
  | cons v rest ih =>
    intro xs done h
    cases xs with
    | nil => simp at h
    | cons x xs =>
      simp only [List.map_cons, List.cons.injEq] at h
      obtain ⟨hv, hrest⟩ := h
      simp only [parseLoop, hv, List.length_cons]
      rw [set_append_replicate]
      have := ih xs (done ++ [x]) hrest
      simpa [List.append_assoc] using this

theorem parse_all_or_first_failure {α ε : Type} (parseFloat : String → Except ε α)
    (fs : List String) :
    (∃ xs : List α, fs.map parseFloat = xs.map Except.ok) ∨
    (∃ pre f post err, fs = pre ++ f :: post ∧
      (∀ g ∈ pre, ∃ x, parseFloat g = .ok x) ∧ parseFloat f = .error err) := by
  induction fs with
  | nil => exact Or.inl ⟨[], rfl⟩
  | cons v fs ih =>
    cases hv : parseFloat v with
    | error err =>
      exact Or.inr ⟨[], v, fs, err, rfl, by simp, hv⟩
    | ok x =>
      rcases ih with ⟨xs, hxs⟩ | ⟨pre, f, post, err, hfs, hpre, hf⟩
      · exact Or.inl ⟨x :: xs, by simp [hv, hxs]⟩
      · refine Or.inr ⟨v :: pre, f, post, err, by simp [hfs], ?_, hf⟩
        intro g hg
        rcases List.mem_cons.mp hg with rfl | hg
        · exact ⟨x, hv⟩
        · exact hpre g hg

theorem StrToFloat64Slice_ok {α ε : Type} [Zero α] (parseFloat : String → Except ε α)
    (str : String) (xs : List α) (h : (Fields str).map parseFloat = xs.map Except.ok) :
    StrToFloat64Slice parseFloat str = (some xs, none) := by
  have := parseLoop_ok parseFloat (0 : α) (Fields str) xs [] h
  simpa [StrToFloat64Slice] using this

theorem StrToFloat64Slice_fail {α ε : Type} [Zero α] (parseFloat : String → Except ε α)
    (str : String) (pre : List String) (f : String) (post : List String) (err : ε)
    (hfs : Fields str = pre ++ f :: post) (hpre : ∀ g ∈ pre, ∃ x, parseFloat g = .ok x)
    (hf : parseFloat f = .error err) :
    StrToFloat64Slice parseFloat str = (none, some err) := by
  unfold StrToFloat64Slice
  simp only [hfs]
  exact parseLoop_fail parseFloat f post err hf pre 0 _ hpre

/-- C13. `StrToFloat64Slice` is all-or-nothing: it returns without error exactly when
every field of `strings.Fields` parses; then the data has one value per field, in field
order; otherwise it returns `nil` with the error of the first field that fails to
parse; an empty or all-white-space string gives empty data and no error. -/
theorem StrToFloat64Slice_all_or_nothing {α ε : Type} [Zero α]
    (parseFloat : String → Except ε α) (str : String) :
    ((StrToFloat64Slice parseFloat str).2 = none ↔
      ∀ f ∈ Fields str, ∃ x, parseFloat f = .ok x) ∧
    ((∃ data, StrToFloat64Slice parseFloat str = (some data, none) ∧
        data.length = (Fields str).length ∧
        (Fields str).map parseFloat = data.map Except.ok) ∨
     (∃ pre f post err, Fields str = pre ++ f :: post ∧
        (∀ g ∈ pre, ∃ x, parseFloat g = .ok x) ∧
        parseFloat f = .error err ∧
        StrToFloat64Slice parseFloat str = (none, some err))) ∧
    ((∀ c ∈ str.data, isSpace c = true) →
      StrToFloat64Slice parseFloat str = (some [], none)) := by
  refine ⟨?_, ?_, ?_⟩
  · rcases parse_all_or_first_failure parseFloat (Fields str) with
      ⟨xs, hxs⟩ | ⟨pre, f, post, err, hfs, hpre, hf⟩
    · rw [StrToFloat64Slice_ok parseFloat str xs hxs]
      refine ⟨fun _ => ?_, fun _ => rfl⟩
      intro f hf
      have hmem : parseFloat f ∈ (Fields str).map parseFloat := List.mem_map_of_mem _ hf
      rw [hxs] at hmem
      obtain ⟨x, _, hx⟩ := List.mem_map.mp hmem
      exact ⟨x, hx.symm⟩
    · rw [StrToFloat64Slice_fail parseFloat str pre f post err hfs hpre hf]
      constructor
      · intro h
        exact Option.noConfusion h
      · intro h
        obtain ⟨x, hx⟩ := h f (by rw [hfs]; simp)
        rw [hf] at hx
        exact Except.noConfusion hx
  · rcases parse_all_or_first_failure parseFloat (Fields str) with
      ⟨xs, hxs⟩ | ⟨pre, f, post, err, hfs, hpre, hf⟩
    · left
      refine ⟨xs, StrToFloat64Slice_ok parseFloat str xs hxs, ?_, hxs⟩
      have := congrArg List.length hxs
      simpa using this.symm
    · right
      exact ⟨pre, f, post, err, hfs, hpre, hf,
        StrToFloat64Slice_fail parseFloat str pre f post err hfs hpre hf⟩
  · intro h
    apply StrToFloat64Slice_ok
    have : Fields str = [] := fieldsAux_all_space str.data h
    rw [this]
    rfl

/-- The cases of `StrToFloat64Slice_all_or_nothing` on concrete strings: an
all-white-space string, a string whose fields all parse, and a string whose second field
is the first that fails. -/
theorem StrToFloat64Slice_all_or_nothing_witness :
    (∀ c ∈ "  ".data, isSpace c = true) ∧
    StrToFloat64Slice parseOneTwo "  " = (some [], none) ∧
    StrToFloat64Slice parseOneTwo " 1 2  1" = (some [1, 2, 1], none) ∧
    StrToFloat64Slice parseOneTwo " 1 x 2 y" = (none, some "x") :=
  ⟨by decide,
   (StrToFloat64Slice_all_or_nothing parseOneTwo "  ").2.2 (by decide),
   by decide, by decide⟩

end F64utils
